import Mathlib

/-!
# Sarpedon score store (`db.go`)

A shallow embedding of the score ledger and scoreboard code of `db.go`.

* Database `sarpedon` is a `Store`: the two collections `results` (the ledger)
  and `scoreboard` (the materialized view), each a list of documents in natural
  (scan) order, together with the log of the collection operations received.
* Every driver call of `db.go` is a function on a collection; a call fails when
  the environment (`Faults`) says so, and the Go function sees the error.
* `time.Time` is an `Int` (milliseconds since the Unix epoch, the precision at which
  the store keeps dates), `time.Duration` an `Int` (nanoseconds), Go `int` an `Int`
  (no arithmetic is performed on it here).
* `getTeam`, `sarpConfig.Image` and `formatTime` live outside `db.go`; the functions
  that use them take them as parameters.
* `initDatabase` only manages the connection globals and is not part of the model.
-/

namespace Sarpedon

/-! ## Data model -/

/-- Go struct `teamData`. -/
structure teamData where
  Id : String
  Alias : String
  Email : String
  ImageCount : Int
  Score : Int
  Time : String
deriving DecidableEq, Repr

/-- Go struct `vulnItem`. -/
structure vulnItem where
  VulnText : String
  VulnPoints : Int
deriving DecidableEq, Repr

/-- Go struct `vulnWrapper`. -/
structure vulnWrapper where
  VulnsScored : Int
  VulnsTotal : Int
  VulnItems : List vulnItem
deriving DecidableEq, Repr

mutual
/-- Go struct `scoreEntry`: a ledger event and a scoreboard row have this one type. -/
inductive scoreEntry where
  | mk (Time : Int) (Team : teamData) (Image : imageData) (Vulns : vulnWrapper)
      (Debug : String) (Points Penalties : Int) (PlayTime : Int) (PlayTimeStr : String)
      (ElapsedTime : Int) (ElapsedTimeStr : String)
/-- Go struct `imageData`; `Records` embeds earlier score entries. -/
inductive imageData where
  | mk (Name Color : String) (Records : List scoreEntry) (Index : Int)
end

def scoreEntry.Time : scoreEntry → Int
  | .mk t _ _ _ _ _ _ _ _ _ _ => t

def scoreEntry.Team : scoreEntry → teamData
  | .mk _ t _ _ _ _ _ _ _ _ _ => t

def scoreEntry.Image : scoreEntry → imageData
  | .mk _ _ i _ _ _ _ _ _ _ _ => i

def scoreEntry.Vulns : scoreEntry → vulnWrapper
  | .mk _ _ _ v _ _ _ _ _ _ _ => v

def scoreEntry.Debug : scoreEntry → String
  | .mk _ _ _ _ d _ _ _ _ _ _ => d

def scoreEntry.Points : scoreEntry → Int
  | .mk _ _ _ _ _ p _ _ _ _ _ => p

def scoreEntry.Penalties : scoreEntry → Int
  | .mk _ _ _ _ _ _ p _ _ _ _ => p

def scoreEntry.PlayTime : scoreEntry → Int
  | .mk _ _ _ _ _ _ _ p _ _ _ => p

def scoreEntry.PlayTimeStr : scoreEntry → String
  | .mk _ _ _ _ _ _ _ _ s _ _ => s

def scoreEntry.ElapsedTime : scoreEntry → Int
  | .mk _ _ _ _ _ _ _ _ _ e _ => e

def scoreEntry.ElapsedTimeStr : scoreEntry → String
  | .mk _ _ _ _ _ _ _ _ _ _ s => s

def imageData.Name : imageData → String
  | .mk n _ _ _ => n

def imageData.Color : imageData → String
  | .mk _ c _ _ => c

def imageData.Records : imageData → List scoreEntry
  | .mk _ _ r _ => r

def imageData.Index : imageData → Int
  | .mk _ _ _ i => i

mutual
/-- Equality of score entries is decidable, field by field. -/
def scoreEntry.decEq : (a b : scoreEntry) → Decidable (a = b)
  | .mk t1 tm1 i1 v1 d1 p1 pe1 pt1 ps1 et1 es1, .mk t2 tm2 i2 v2 d2 p2 pe2 pt2 ps2 et2 es2 =>
    if h : t1 = t2 ∧ tm1 = tm2 ∧ v1 = v2 ∧ d1 = d2 ∧ p1 = p2 ∧ pe1 = pe2 ∧ pt1 = pt2 ∧ ps1 = ps2
        ∧ et1 = et2 ∧ es1 = es2 then
      match imageData.decEq i1 i2 with
      | isTrue hi =>
        isTrue (by obtain ⟨h1, h2, h3, h4, h5, h6, h7, h8, h9, h10⟩ := h; subst_vars; rfl)
      | isFalse hi => isFalse (by intro he; injection he; contradiction)
    else isFalse (by intro he; injection he; subst_vars; simp at h)
/-- Equality of image records is decidable, field by field. -/
def imageData.decEq : (a b : imageData) → Decidable (a = b)
  | .mk n1 c1 r1 x1, .mk n2 c2 r2 x2 =>
    if h : n1 = n2 ∧ c1 = c2 ∧ x1 = x2 then
      match decEqRecords r1 r2 with
      | isTrue hr => isTrue (by obtain ⟨h1, h2, h3⟩ := h; subst_vars; rfl)
      | isFalse hr => isFalse (by intro he; injection he; contradiction)
    else isFalse (by intro he; injection he; subst_vars; simp at h)
/-- Equality of embedded record lists is decidable. -/
def decEqRecords : (a b : List scoreEntry) → Decidable (a = b)
  | [], [] => isTrue rfl
  | [], _ :: _ => isFalse (by simp)
  | _ :: _, [] => isFalse (by simp)
  | x :: xs, y :: ys =>
    match scoreEntry.decEq x y with
    | isTrue hx =>
      match decEqRecords xs ys with
      | isTrue hxs => isTrue (by subst_vars; rfl)
      | isFalse hxs => isFalse (by intro he; injection he; contradiction)
    | isFalse hx => isFalse (by intro he; injection he; contradiction)
end

instance : DecidableEq scoreEntry := scoreEntry.decEq

instance : DecidableEq imageData := imageData.decEq

/-- The zero value of Go's `time.Time` (January 1, year 1, UTC) in milliseconds since
the Unix epoch. -/
def zeroTime : Int := -62135596800000

/-- The Go zero value `scoreEntry{}`. -/
def zeroScoreEntry : scoreEntry :=
  .mk zeroTime ⟨"", "", "", 0, 0, ""⟩ (.mk "" "" [] 0) ⟨0, 0, []⟩ "" 0 0 0 "" 0 ""

/-! ## The store -/

/-- The collections of database `sarpedon` used by `db.go`. -/
inductive Coll where
  | results
  | scoreboard
deriving DecidableEq, Repr

/-- One collection operation, as received by the store. `InsertMany` carries the number
of documents sent. -/
inductive StoreOp where
  | Drop (c : Coll)
  | Aggregate (c : Coll)
  | InsertMany (c : Coll) (n : Nat)
  | Find (c : Coll)
  | DeleteOne (c : Coll)
  | InsertOne (c : Coll)
  | FindOne (c : Coll)
deriving DecidableEq, Repr

/-- An error value returned by the driver: the sentinel `mongo.ErrNoDocuments`, or any
other failure. -/
inductive MongoError where
  | ErrNoDocuments
  | Other (msg : String)
deriving DecidableEq, Repr

/-- Database `sarpedon`: both collections in natural (scan) order, and the operations
received so far, oldest first. -/
structure Store where
  results : List scoreEntry
  scoreboard : List scoreEntry
  log : List StoreOp

/-- Which driver calls fail. `none`: the call is carried out. For `insertMany` the
number is how many documents of the batch were written before the failure. -/
structure Faults where
  drop : Option String
  aggregate : Option String
  aggregateAll : Option String
  insertMany : Option (Nat × String)
  find : Option String
  findAll : Option String
  deleteOne : Option String
  insertOne : Option String
  findOne : Option String

/-- A store on which every call is carried out. -/
def healthy : Faults := ⟨none, none, none, none, none, none, none, none, none⟩

/-- Append an operation to the store's log. -/
def Store.logged (st : Store) (op : StoreOp) : Store :=
  { st with log := st.log ++ [op] }

/-- The filter `bson.D{{"image.name", name}, {"team.id", id}}` applied to a document. -/
def keyFilter (name id : String) (d : scoreEntry) : Bool :=
  d.Image.Name == name && d.Team.Id == id

/-- `DeleteOne` on a collection: the first document matching the filter is removed. -/
def deleteOne (filter : scoreEntry → Bool) (coll : List scoreEntry) : List scoreEntry :=
  coll.eraseP filter

/-- `InsertOne` on a collection: the document is added at the end of the scan order. -/
def insertOne (doc : scoreEntry) (coll : List scoreEntry) : List scoreEntry :=
  coll ++ [doc]

/-- `InsertMany` on a collection: the documents are added in order. -/
def insertMany (docs : List scoreEntry) (coll : List scoreEntry) : List scoreEntry :=
  coll ++ docs

/-- `FindOne(...).Decode`: the first matching document, `ErrNoDocuments` when none. -/
def findOne (filter : scoreEntry → Bool) (coll : List scoreEntry) :
    Except MongoError scoreEntry :=
  match coll.find? filter with
  | some d => .ok d
  | none => .error .ErrNoDocuments

/-! ## The aggregation pipeline of `getScores` -/

/-- The `_id` of the `$group` stage: `{image: "$image.name", team: "$team.id"}`. -/
structure groupId where
  image : String
  team : String
deriving DecidableEq, Repr

/-- The key of a document. -/
def groupKey (d : scoreEntry) : groupId := ⟨d.Image.Name, d.Team.Id⟩

/-- A document produced by the `$group` stage (and kept as is by `$project`). -/
structure groupDoc where
  _id : groupId
  time : Int
  team : teamData
  image : imageData
  points : Int
  playtime : Int
  elapsedtime : Int
  playtimestr : String
  elapsedtimestr : String
  vulns : vulnWrapper
  debug : String

/-- Accumulator `$max` over a group `d :: ds`, in input order. -/
def accMax (expr : scoreEntry → Int) (d : scoreEntry) (ds : List scoreEntry) : Int :=
  (ds.map expr).foldl max (expr d)

/-- Accumulator `$last` over a group `d :: ds`, in input order: the expression at the
last document of the group. -/
def accLast {α : Type} (expr : scoreEntry → α) (d : scoreEntry) (ds : List scoreEntry) : α :=
  expr (ds.getLastD d)

/-- The documents of a collection that fall in group `k`, in input order. -/
def groupOf (docs : List scoreEntry) (k : groupId) : List scoreEntry :=
  docs.filter (fun d => decide (groupKey d = k))

/-- The `$group` stage of `getScores`: one document per distinct key, `time` by `$max`,
every other field by `$last`. (The order of the groups is not fixed by the store; no
statement below depends on it.) -/
def groupStage (docs : List scoreEntry) : List groupDoc :=
  ((docs.map groupKey).dedup).filterMap fun k =>
    match groupOf docs k with
    | [] => none
    | d :: ds =>
      some {
        _id := k
        time := accMax scoreEntry.Time d ds
        team := accLast scoreEntry.Team d ds
        image := accLast scoreEntry.Image d ds
        points := accLast scoreEntry.Points d ds
        playtime := accLast scoreEntry.PlayTime d ds
        elapsedtime := accLast scoreEntry.ElapsedTime d ds
        playtimestr := accLast scoreEntry.PlayTimeStr d ds
        elapsedtimestr := accLast scoreEntry.ElapsedTimeStr d ds
        vulns := accLast scoreEntry.Vulns d ds
        debug := accLast scoreEntry.Debug d ds }

/-- The `$project` stage of `getScores`: the ten listed fields (and `_id`) are kept. -/
def projectStage (g : groupDoc) : groupDoc :=
  { _id := g._id
    time := g.time
    team := g.team
    image := g.image
    points := g.points
    playtime := g.playtime
    elapsedtime := g.elapsedtime
    playtimestr := g.playtimestr
    elapsedtimestr := g.elapsedtimestr
    vulns := g.vulns
    debug := g.debug }

/-- Decoding a pipeline document into a `scoreEntry` (`cursor.All`): fields are matched
by name, `_id` has no field, and `penalties`, which the pipeline does not produce, keeps
the zero value. -/
def decodeScore (g : groupDoc) : scoreEntry :=
  .mk g.time g.team g.image g.vulns g.debug g.points 0 g.playtime g.playtimestr
    g.elapsedtime g.elapsedtimestr

/-! ## The functions of `db.go` -/

/-- `getScores`: the aggregation over `results`. Returns `(scores, err)`; when `Aggregate`
or `cursor.All` fails, `scores` is the empty slice it was initialised with. -/
def getScores (f : Faults) (st : Store) : Store × (List scoreEntry × Option MongoError) :=
  let st1 := st.logged (.Aggregate .results)
  match f.aggregate with
  | some m => (st1, [], some (.Other m))
  | none =>
    match f.aggregateAll with
    | some m => (st1, [], some (.Other m))
    | none => (st1, ((groupStage st.results).map projectStage).map decodeScore, none)

/-- `initScoreboard`: drop `scoreboard`, compute `getScores`, bulk-insert the result when
it is not empty. The second component is the exit status when the process was terminated
by `os.Exit`, `none` when the function returned. -/
def initScoreboard (f : Faults) (st : Store) : Store × Option Nat :=
  let st0 := st.logged (.Drop .scoreboard)
  match f.drop with
  | some _ => (st0, some 1)
  | none =>
    let st1 : Store := { st0 with scoreboard := [] }
    match getScores f st1 with
    | (st2, _, some _) => (st2, some 1)
    | (st2, topBoard, none) =>
      if topBoard.length > 0 then
        let st3 := st2.logged (.InsertMany .scoreboard topBoard.length)
        match f.insertMany with
        | some (n, _) =>
          ({ st3 with scoreboard := insertMany (topBoard.take n) st3.scoreboard }, some 1)
        | none => ({ st3 with scoreboard := insertMany topBoard st3.scoreboard }, none)
      else (st2, none)

/-- `getTop`: the full scan of `scoreboard`. Returns `(scores, err)`; when `Find` or
`cursor.All` fails, `scores` is the empty slice it was initialised with. -/
def getTop (f : Faults) (st : Store) : Store × (List scoreEntry × Option MongoError) :=
  let st1 := st.logged (.Find .scoreboard)
  match f.find with
  | some m => (st1, [], some (.Other m))
  | none =>
    match f.findAll with
    | some m => (st1, [], some (.Other m))
    | none => (st1, st.scoreboard, none)

/-- The header line written by `getCsv`. -/
def csvHeader : String := "Email,Alias,Team Id,Image,Score,Play Time,Elapsed Time\n"

/-- One turn of the loop of `getCsv`: the seven appends to `csvString`. -/
def csvAppend (formatTime : Int → String) (csvString : String) (score : scoreEntry) :
    String :=
  let s1 := csvString ++ (score.Team.Email ++ ",")
  let s2 := s1 ++ (score.Team.Alias ++ ",")
  let s3 := s2 ++ (score.Team.Id ++ ",")
  let s4 := s3 ++ (score.Image.Name ++ ",")
  let s5 := s4 ++ (toString score.Points ++ ",")
  let s6 := s5 ++ (formatTime score.PlayTime ++ ",")
  s6 ++ (formatTime score.ElapsedTime ++ "\n")

/-- `getCsv`, with `formatTime` (defined outside `db.go`) as a parameter. An error of
`getTop` is a panic, rendered as `Except.error`. -/
def getCsv (formatTime : Int → String) (f : Faults) (st : Store) :
    Store × Except MongoError String :=
  match getTop f st with
  | (st1, _, some err) => (st1, .error err)
  | (st1, teamScores, none) => (st1, .ok (teamScores.foldl (csvAppend formatTime) csvHeader))

/-- `getScore`, with `getTeam` and the configured images `sarpConfig.Image` (both defined
outside `db.go`) as parameters. An error of `getTop` is a panic. -/
def getScore (getTeam : String → teamData) (images : List imageData) (f : Faults)
    (teamName imageName : String) (st : Store) : Store × Except MongoError (List scoreEntry) :=
  let teamObj := getTeam teamName
  match getTop f st with
  | (st1, _, some err) => (st1, .error err)
  | (st1, teamScores, none) =>
    if imageName ≠ "" then
      (st1, .ok (teamScores.filter fun score =>
        score.Image.Name == imageName && score.Team.Id == teamObj.Id))
    else
      (st1, .ok (images.flatMap fun image =>
        teamScores.filter fun score =>
          score.Image.Name == image.Name && score.Team.Id == teamObj.Id))

/-- `insertScore`: append one event to the ledger. Returns `err`. -/
def insertScore (f : Faults) (newEntry : scoreEntry) (st : Store) :
    Store × Option MongoError :=
  let st1 := st.logged (.InsertOne .results)
  match f.insertOne with
  | some m => (st1, some (.Other m))
  | none => ({ st1 with results := insertOne newEntry st1.results }, none)

/-- `replaceScore`: `DeleteOne` on the key of `newEntry`, then `InsertOne`. Returns
`err`. -/
def replaceScore (f : Faults) (newEntry : scoreEntry) (st : Store) :
    Store × Option MongoError :=
  let st1 := st.logged (.DeleteOne .scoreboard)
  match f.deleteOne with
  | some m => (st1, some (.Other m))
  | none =>
    let st2 : Store :=
      { st1 with
        scoreboard := deleteOne (keyFilter newEntry.Image.Name newEntry.Team.Id) st1.scoreboard }
    let st3 := st2.logged (.InsertOne .scoreboard)
    match f.insertOne with
    | some m => (st3, some (.Other m))
    | none => ({ st3 with scoreboard := insertOne newEntry st3.scoreboard }, none)

/-- `getLastScore`: `FindOne` on the key of `newEntry`, decoded into a zero-valued
`score`. Returns `(score, err)`; `err` is whatever `Decode` returned. -/
def getLastScore (f : Faults) (newEntry : scoreEntry) (st : Store) :
    Store × (scoreEntry × Option MongoError) :=
  let score := zeroScoreEntry
  let st1 := st.logged (.FindOne .scoreboard)
  match f.findOne with
  | some m => (st1, score, some (.Other m))
  | none =>
    match findOne (keyFilter newEntry.Image.Name newEntry.Team.Id) st1.scoreboard with
    | .ok d => (st1, d, none)
    | .error err => (st1, score, some err)

/-! ## Derived notions used in the statements -/

/-- A view holds at most one entry per `(image.name, team.id)` key. -/
def UniqueKeys (view : List scoreEntry) : Prop := (view.map groupKey).Nodup

instance (view : List scoreEntry) : Decidable (UniqueKeys view) :=
  inferInstanceAs (Decidable (view.map groupKey).Nodup)

/-- The entry that the pipeline of `getScores` yields for a non-empty group `d :: ds`:
`decodeScore (projectStage g)` for the group document `g` of `groupStage`. -/
def reduced (d : scoreEntry) (ds : List scoreEntry) : scoreEntry :=
  .mk (accMax scoreEntry.Time d ds) (accLast scoreEntry.Team d ds) (accLast scoreEntry.Image d ds)
    (accLast scoreEntry.Vulns d ds) (accLast scoreEntry.Debug d ds)
    (accLast scoreEntry.Points d ds) 0 (accLast scoreEntry.PlayTime d ds)
    (accLast scoreEntry.PlayTimeStr d ds) (accLast scoreEntry.ElapsedTime d ds)
    (accLast scoreEntry.ElapsedTimeStr d ds)

/-- The decoded output of the pipeline of `getScores` on a collection. -/
def pipeline (docs : List scoreEntry) : List scoreEntry :=
  ((groupStage docs).map projectStage).map decodeScore

/-- The two store steps of one `replaceScore` call on the `scoreboard` collection, in
program order: `DeleteOne` on the key, then `InsertOne`. -/
def replaceScoreSteps (newEntry : scoreEntry) : List (List scoreEntry → List scoreEntry) :=
  [deleteOne (keyFilter newEntry.Image.Name newEntry.Team.Id), insertOne newEntry]

/-- Two calls running concurrently against one collection: the schedule names, step by
step, the call that moves next (`false`: the first, `true`: the second); each store
step is atomic. A move of a call that has finished is a no-op. -/
def interleave : List Bool → List (List scoreEntry → List scoreEntry) →
    List (List scoreEntry → List scoreEntry) → List scoreEntry → List scoreEntry
  | [], _, _, v => v
  | false :: s, [], p2, v => interleave s [] p2 v
  | false :: s, step :: p1, p2, v => interleave s p1 p2 (step v)
  | true :: s, p1, [], v => interleave s p1 [] v
  | true :: s, p1, step :: p2, v => interleave s p1 p2 (step v)

/-- A schedule that runs both two-step calls to completion. -/
def CompleteSchedule (s : List Bool) : Prop := s.count false = 2 ∧ s.count true = 2

instance (s : List Bool) : Decidable (CompleteSchedule s) :=
  inferInstanceAs (Decidable (s.count false = 2 ∧ s.count true = 2))

/-- The entries of a view with the key `k`, in scan order. -/
def entriesAt (view : List scoreEntry) (k : groupId) : List scoreEntry :=
  view.filter (fun x => decide (groupKey x = k))

/-- The data line that the specification gives for one entry: the seven columns joined
by commas, the two durations being the stored strings `playtimestr` and
`elapsedtimestr`. -/
def specCsvLine (e : scoreEntry) : String :=
  String.intercalate "," [e.Team.Email, e.Team.Alias, e.Team.Id, e.Image.Name,
    toString e.Points, e.PlayTimeStr, e.ElapsedTimeStr] ++ "\n"

/-- The CSV text that the specification gives for a scan: header, then one line per
entry. -/
def specCsv (entries : List scoreEntry) : String :=
  csvHeader ++ String.join (entries.map specCsvLine)

/-- The data line that `getCsv` writes for one entry: the seven columns joined by
commas, the two durations rendered by `formatTime`. -/
def csvLine (formatTime : Int → String) (e : scoreEntry) : String :=
  String.intercalate "," [e.Team.Email, e.Team.Alias, e.Team.Id, e.Image.Name,
    toString e.Points, formatTime e.PlayTime, formatTime e.ElapsedTime] ++ "\n"

/-- A duration formatter in the style `1h0m0s`, used to instantiate `formatTime` in
examples. -/
def hms (d : Int) : String :=
  toString (d / 3600000000000) ++ "h" ++ toString (d / 60000000000 % 60) ++ "m"
    ++ toString (d / 1000000000 % 60) ++ "s"

/-- Entry `e` carries the team, image, points, playtime, elapsedtime, playtimestr,
elapsedtimestr, vulns and debug of event `x`. -/
def SameCopied (e x : scoreEntry) : Prop :=
  e.Team = x.Team ∧ e.Image = x.Image ∧ e.Points = x.Points ∧ e.PlayTime = x.PlayTime ∧
    e.ElapsedTime = x.ElapsedTime ∧ e.PlayTimeStr = x.PlayTimeStr ∧
    e.ElapsedTimeStr = x.ElapsedTimeStr ∧ e.Vulns = x.Vulns ∧ e.Debug = x.Debug

instance (e x : scoreEntry) : Decidable (SameCopied e x) :=
  inferInstanceAs (Decidable (_ ∧ _))

/-! ## Example data -/

/-- Team `T1`. -/
def exTeam : teamData := ⟨"T1", "", "", 0, 0, ""⟩

/-- Image `imgX`. -/
def exImage : imageData := .mk "imgX" "" [] 0

/-- An event of team `T1` on image `imgX` with the given time, points and penalties. -/
def exEvent (time points penalties : Int) : scoreEntry :=
  .mk time exTeam exImage ⟨0, 0, []⟩ "" points penalties 0 "" 0 ""

/-- A ledger with three events of key `(T1, imgX)`, appended in the order time 10, 30,
20, and an empty scoreboard. -/
def exLedger : Store := ⟨[exEvent 10 5 0, exEvent 30 9 0, exEvent 20 7 2], [], []⟩

/-- A scoreboard entry of team `t1` (alias `A`, email `a@x.com`) on image `web` with 100
points, play time one hour and elapsed time two hours, and the given stored strings. -/
def exCsvEntry (playTimeStr elapsedTimeStr : String) : scoreEntry :=
  .mk 0 ⟨"t1", "A", "a@x.com", 0, 0, ""⟩ (.mk "web" "" [] 0) ⟨0, 0, []⟩ "" 100 0
    3600000000000 playTimeStr 7200000000000 elapsedTimeStr

/-- A configuration of two images, `web` before `db` before `imgX`. -/
def exImages : List imageData := [.mk "web" "" [] 0, .mk "db" "" [] 1, .mk "imgX" "" [] 2]

/-- A team registry that resolves every name to the team whose id is that name. -/
def exGetTeam (teamName : String) : teamData := ⟨teamName, "", "", 0, 0, ""⟩

/-! ## Lemmas on the store operations and on the pipeline -/

theorem keyFilter_iff (name id : String) (d : scoreEntry) :
    keyFilter name id d = true ↔ groupKey d = ⟨name, id⟩ := by
  simp [keyFilter, groupKey]

theorem keyFilter_eq_decide (e : scoreEntry) :
    keyFilter e.Image.Name e.Team.Id = fun x => decide (groupKey x = groupKey e) := by
  funext d
  rw [Bool.eq_iff_iff, keyFilter_iff]
  simp [groupKey]

theorem foldl_max_ge (l : List Int) (a : Int) : a ≤ l.foldl max a := by
  induction l generalizing a with
  | nil => simp
  | cons x xs ih => exact le_trans (le_max_left a x) (ih (max a x))

theorem foldl_max_ge_mem (l : List Int) (a : Int) : ∀ x ∈ l, x ≤ l.foldl max a := by
  induction l generalizing a with
  | nil => simp
  | cons y ys ih =>
    intro x hx
    rcases List.mem_cons.1 hx with rfl | h
    · exact le_trans (le_max_right a x) (foldl_max_ge ys (max a x))
    · exact ih (max a y) x h

theorem foldl_max_mem (l : List Int) (a : Int) : l.foldl max a ∈ a :: l := by
  induction l generalizing a with
  | nil => simp
  | cons y ys ih =>
    show List.foldl max (max a y) ys ∈ a :: y :: ys
    rcases List.mem_cons.1 (ih (max a y)) with h1 | h1
    · rw [h1]
      rcases max_choice a y with h2 | h2
      · rw [h2]; simp
      · rw [h2]; simp
    · exact List.mem_cons_of_mem _ (List.mem_cons_of_mem _ h1)

theorem accMax_ge (d : scoreEntry) (ds : List scoreEntry) :
    ∀ x ∈ d :: ds, x.Time ≤ accMax scoreEntry.Time d ds := by
  intro x hx
  rcases List.mem_cons.1 hx with rfl | h
  · exact foldl_max_ge _ _
  · exact foldl_max_ge_mem _ _ _ (List.mem_map_of_mem _ h)

theorem accMax_attained (d : scoreEntry) (ds : List scoreEntry) :
    ∃ x ∈ d :: ds, accMax scoreEntry.Time d ds = x.Time := by
  have h := foldl_max_mem (ds.map scoreEntry.Time) d.Time
  rcases List.mem_cons.1 h with h1 | h1
  · exact ⟨d, List.mem_cons_self _ _, h1⟩
  · obtain ⟨x, hx, hxt⟩ := List.mem_map.1 h1
    exact ⟨x, List.mem_cons_of_mem _ hx, hxt.symm⟩

theorem getLastD_eq_getLast (d : scoreEntry) (ds : List scoreEntry) :
    ds.getLastD d = (d :: ds).getLast (List.cons_ne_nil d ds) := by
  induction ds generalizing d with
  | nil => rfl
  | cons x xs ih => simp [List.getLastD, ih x, List.getLast_cons]

theorem filterMap_map_id {κ β : Type} (g : β → κ) (f : κ → Option β) (l : List κ)
    (h : ∀ k ∈ l, ∃ b, f k = some b ∧ g b = k) : (l.filterMap f).map g = l := by
  induction l with
  | nil => rfl
  | cons k ks ih =>
    obtain ⟨b, hb, hg⟩ := h k (List.mem_cons_self k ks)
    rw [List.filterMap_cons, hb]
    simp only [List.map_cons, hg]
    rw [ih (fun k1 hk1 => h k1 (List.mem_cons_of_mem _ hk1))]

theorem groupOf_key (docs : List scoreEntry) (k : groupId) :
    ∀ x ∈ groupOf docs k, groupKey x = k := by
  intro x hx
  simpa using (List.mem_filter.1 hx).2

theorem groupOf_ne_nil (docs : List scoreEntry) (k : groupId) (hk : k ∈ docs.map groupKey) :
    groupOf docs k ≠ [] := by
  obtain ⟨x, hx, rfl⟩ := List.mem_map.1 hk
  intro h
  have : x ∈ groupOf docs (groupKey x) := List.mem_filter.2 ⟨hx, by simp⟩
  rw [h] at this
  exact List.not_mem_nil _ this

theorem pipeline_eq (docs : List scoreEntry) :
    pipeline docs = ((docs.map groupKey).dedup).filterMap fun k =>
      match groupOf docs k with
      | [] => none
      | d :: ds => some (reduced d ds) := by
  unfold pipeline groupStage
  rw [List.map_map, List.map_filterMap]
  congr 1
  funext k
  cases groupOf docs k <;> rfl

theorem reduced_key (docs : List scoreEntry) (k : groupId) (d : scoreEntry)
    (ds : List scoreEntry) (h : groupOf docs k = d :: ds) : groupKey (reduced d ds) = k := by
  have hm : ds.getLastD d ∈ groupOf docs k := by
    rw [h, getLastD_eq_getLast]; exact List.getLast_mem _
  have := groupOf_key docs k _ hm
  simpa [reduced, groupKey, accLast, scoreEntry.Image, scoreEntry.Team] using this

theorem pipeline_keys (docs : List scoreEntry) :
    (pipeline docs).map groupKey = (docs.map groupKey).dedup := by
  rw [pipeline_eq]
  apply filterMap_map_id
  intro k hk
  have hne := groupOf_ne_nil docs k (List.mem_dedup.1 hk)
  cases h : groupOf docs k with
  | nil => exact absurd h hne
  | cons d ds => exact ⟨reduced d ds, rfl, reduced_key docs k d ds h⟩

theorem pipeline_unique (docs : List scoreEntry) : UniqueKeys (pipeline docs) := by
  unfold UniqueKeys
  rw [pipeline_keys]
  exact List.nodup_dedup _

theorem pipeline_mem (docs : List scoreEntry) (k : groupId) (d : scoreEntry)
    (ds : List scoreEntry) (h : groupOf docs k = d :: ds) : reduced d ds ∈ pipeline docs := by
  rw [pipeline_eq, List.mem_filterMap]
  refine ⟨k, ?_, by rw [h]⟩
  rw [List.mem_dedup]
  have : d ∈ groupOf docs k := by rw [h]; exact List.mem_cons_self _ _
  exact List.mem_map.2 ⟨d, (List.mem_filter.1 this).1, groupOf_key docs k d this⟩

theorem pipeline_nil : pipeline [] = [] := rfl

theorem filter_key_singleton (l : List scoreEntry) (hu : UniqueKeys l) (e : scoreEntry)
    (he : e ∈ l) : entriesAt l (groupKey e) = [e] := by
  unfold entriesAt
  induction l with
  | nil => exact absurd he (List.not_mem_nil _)
  | cons x xs ih =>
    have hu2 : (groupKey x ∉ xs.map groupKey) ∧ (xs.map groupKey).Nodup := by
      simpa [UniqueKeys] using hu
    rcases List.mem_cons.1 he with rfl | hm
    · have : xs.filter (fun x => decide (groupKey x = groupKey e)) = [] := by
        rw [List.filter_eq_nil_iff]
        intro y hy hk
        exact hu2.1 (List.mem_map.2 ⟨y, hy, by simpa using hk⟩)
      simp [List.filter_cons, this]
    · have hne : groupKey x ≠ groupKey e := by
        intro hk
        exact hu2.1 (List.mem_map.2 ⟨e, hm, hk.symm⟩)
      simp [List.filter_cons, hne, ih hu2.2 hm]

theorem getScores_ok (f : Faults) (st : Store) (hagg : f.aggregate = none)
    (hall : f.aggregateAll = none) :
    getScores f st = (st.logged (.Aggregate .results), pipeline st.results, none) := by
  simp [getScores, hagg, hall, pipeline]

theorem initScoreboard_ok (f : Faults) (st : Store) (hdrop : f.drop = none)
    (hagg : f.aggregate = none) (hall : f.aggregateAll = none) (hins : f.insertMany = none) :
    (initScoreboard f st).2 = none ∧
      (initScoreboard f st).1.scoreboard = pipeline st.results ∧
      (initScoreboard f st).1.results = st.results := by
  unfold initScoreboard
  simp only [hdrop, getScores_ok f _ hagg hall, hins]
  by_cases h : 0 < (pipeline st.results).length
  · simp [h, Store.logged, insertMany]
  · have h0 : pipeline st.results = [] := by simpa using h
    simp [Store.logged, h0]

/-! ## The rebuild reduction: `getScores` and `initScoreboard` -/

/-- C10: for every ledger and every key with a non-empty partition, `getScores` (on a
store that carries out the aggregation) returns no error and exactly one entry for that
key; its time is the maximum time over the partition, its team, image, points, playtime,
elapsedtime, playtimestr, elapsedtimestr, vulns and debug are those of the last event of
the partition in scan order, and its penalties are 0. -/
theorem getScores_time_max_rest_last (f : Faults) (st : Store) (k : groupId)
    (hagg : f.aggregate = none) (hall : f.aggregateAll = none)
    (hne : groupOf st.results k ≠ []) :
    (getScores f st).2.2 = none ∧
      ∃ e, entriesAt (getScores f st).2.1 k = [e] ∧
        (∀ x ∈ groupOf st.results k, x.Time ≤ e.Time) ∧
        (∃ x ∈ groupOf st.results k, e.Time = x.Time) ∧
        SameCopied e ((groupOf st.results k).getLast hne) ∧
        e.Penalties = 0 := by
  rw [getScores_ok f st hagg hall]
  refine ⟨rfl, ?_⟩
  obtain ⟨d, ds, h⟩ : ∃ d ds, groupOf st.results k = d :: ds := List.exists_cons_of_ne_nil hne
  refine ⟨reduced d ds, ?_, ?_, ?_, ?_, rfl⟩
  · have hk := reduced_key st.results k d ds h
    have := filter_key_singleton (pipeline st.results) (pipeline_unique _) (reduced d ds)
      (pipeline_mem st.results k d ds h)
    rw [hk] at this
    exact this
  · intro x hx
    rw [h] at hx
    exact accMax_ge d ds x hx
  · obtain ⟨x, hx, hxt⟩ := accMax_attained d ds
    exact ⟨x, by rw [h]; exact hx, hxt⟩
  · have hl : ds.getLastD d = (groupOf st.results k).getLast hne := by
      rw [getLastD_eq_getLast]
      congr 1
      exact h.symm
    rw [← hl]
    exact ⟨rfl, rfl, rfl, rfl, rfl, rfl, rfl, rfl, rfl⟩

/-- C10, at the example ledger: the entry for key `(T1, imgX)` has the maximal time 30
and the points of the last event. -/
theorem getScores_time_max_rest_last_witness :
    (healthy.aggregate = none ∧ healthy.aggregateAll = none ∧
      groupOf exLedger.results ⟨"imgX", "T1"⟩ ≠ []) ∧
    ∃ e, entriesAt (getScores healthy exLedger).2.1 ⟨"imgX", "T1"⟩ = [e] ∧
      e.Time = 30 ∧ e.Points = 7 ∧ e.Penalties = 0 := by
  refine ⟨⟨rfl, rfl, by decide⟩, ?_⟩
  obtain ⟨_, e, he, _, _, _, _⟩ :=
    getScores_time_max_rest_last healthy exLedger ⟨"imgX", "T1"⟩ rfl rfl (by decide)
  refine ⟨e, he, ?_⟩
  have h2 : entriesAt (getScores healthy exLedger).2.1 ⟨"imgX", "T1"⟩ = [exEvent 30 7 0] := by
    decide
  rw [h2] at he
  cases he
  decide

/-- C1, evaluated at a ledger whose events are not in time order: for the three events
of key `(T1, imgX)` appended in the order time 10 / points 5, time 30 / points 9,
time 20 / points 7, `getScores` returns the single entry with time 30 and points 7,
which is none of the events of the ledger; `initScoreboard` inserts it and `getTop` reads
it back. -/
theorem getScores_out_of_order :
    (getScores healthy exLedger).2 = ([exEvent 30 7 0], none) ∧
      (getTop healthy (initScoreboard healthy exLedger).1).2 = ([exEvent 30 7 0], none) ∧
      exEvent 30 7 0 ∉ exLedger.results ∧
      (exEvent 30 7 0).Points ≠ (exEvent 30 9 0).Points := by
  decide

/-- C2: on a store that carries out the drop, the aggregation and the bulk insert,
`initScoreboard` returns (the process is not terminated) and leaves a view in which no
two entries share a key and whose keys are exactly the keys of the ledger: one entry for
each key of the ledger, none for any other key, whatever the view held before. -/
theorem initScoreboard_one_entry_per_key (f : Faults) (st : Store) (hdrop : f.drop = none)
    (hagg : f.aggregate = none) (hall : f.aggregateAll = none) (hins : f.insertMany = none) :
    (initScoreboard f st).2 = none ∧
      UniqueKeys (initScoreboard f st).1.scoreboard ∧
      (∀ k, k ∈ (initScoreboard f st).1.scoreboard.map groupKey ↔
        k ∈ st.results.map groupKey) ∧
      (∀ k, k ∈ st.results.map groupKey →
        (entriesAt (initScoreboard f st).1.scoreboard k).length = 1) ∧
      (∀ k, k ∉ st.results.map groupKey →
        entriesAt (initScoreboard f st).1.scoreboard k = []) := by
  obtain ⟨h1, h2, _⟩ := initScoreboard_ok f st hdrop hagg hall hins
  rw [h2]
  have hkeys : ∀ k, k ∈ (pipeline st.results).map groupKey ↔ k ∈ st.results.map groupKey := by
    intro k
    rw [pipeline_keys, List.mem_dedup]
  refine ⟨h1, pipeline_unique _, hkeys, ?_, ?_⟩
  · intro k hk
    obtain ⟨e, he, rfl⟩ := List.mem_map.1 ((hkeys k).2 hk)
    rw [filter_key_singleton _ (pipeline_unique _) e he]
    rfl
  · intro k hk
    unfold entriesAt
    rw [List.filter_eq_nil_iff]
    intro e he hke
    exact hk ((hkeys k).1 (List.mem_map.2 ⟨e, he, by simpa using hke⟩))

/-- C2, at the example ledger with a stale view: the rebuild leaves exactly one entry
for the key of the ledger and none for another key. -/
theorem initScoreboard_one_entry_per_key_witness :
    (healthy.drop = none ∧ healthy.aggregate = none ∧ healthy.aggregateAll = none ∧
      healthy.insertMany = none) ∧
    (initScoreboard healthy ⟨exLedger.results, [exEvent 1 1 0, exEvent 2 2 0], []⟩).2 = none ∧
    UniqueKeys
      (initScoreboard healthy ⟨exLedger.results, [exEvent 1 1 0, exEvent 2 2 0], []⟩).1.scoreboard ∧
    (entriesAt
      (initScoreboard healthy ⟨exLedger.results, [exEvent 1 1 0, exEvent 2 2 0], []⟩).1.scoreboard
      ⟨"imgX", "T1"⟩).length = 1 ∧
    entriesAt
      (initScoreboard healthy ⟨exLedger.results, [exEvent 1 1 0, exEvent 2 2 0], []⟩).1.scoreboard
      ⟨"web", "T1"⟩ = [] := by
  have h := initScoreboard_one_entry_per_key healthy
    ⟨exLedger.results, [exEvent 1 1 0, exEvent 2 2 0], []⟩ rfl rfl rfl rfl
  exact ⟨⟨rfl, rfl, rfl, rfl⟩, h.1, h.2.1, h.2.2.2.1 _ (by decide), h.2.2.2.2 _ (by decide)⟩

/-- C9: for every prior content of the view, on a store that carries out the drop and
the aggregation, `initScoreboard` over an empty ledger returns (no exit), sends the
store a drop and an aggregation and nothing else (no bulk insert, whether or not one
would have failed), and leaves the view empty, so that a following `getTop` returns the
empty sequence and a nil error. -/
theorem initScoreboard_empty_ledger (f g : Faults) (st : Store) (hempty : st.results = [])
    (hdrop : f.drop = none) (hagg : f.aggregate = none) (hall : f.aggregateAll = none)
    (hfind : g.find = none) (hfall : g.findAll = none) :
    (initScoreboard f st).2 = none ∧
      (initScoreboard f st).1.log = st.log ++ [.Drop .scoreboard, .Aggregate .results] ∧
      (initScoreboard f st).1.scoreboard = [] ∧
      (getTop g (initScoreboard f st).1).2 = ([], none) := by
  have hi : initScoreboard f st =
      (⟨st.results, [], st.log ++ [.Drop .scoreboard, .Aggregate .results]⟩, none) := by
    unfold initScoreboard
    simp only [hdrop, getScores_ok f _ hagg hall]
    simp [Store.logged, hempty, pipeline_nil]
  rw [hi]
  simp [getTop, hfind, hfall]

/-- C9, at an empty ledger with a non-empty stale view, on a store whose bulk insert
would fail. -/
theorem initScoreboard_empty_ledger_witness :
    ((⟨[], [exEvent 1 1 0], []⟩ : Store).results = [] ∧ healthy.drop = none ∧
      healthy.find = none) ∧
    (initScoreboard ⟨none, none, none, some (0, "down"), none, none, none, none, none⟩
        ⟨[], [exEvent 1 1 0], []⟩).2 = none ∧
    (getTop healthy
      (initScoreboard ⟨none, none, none, some (0, "down"), none, none, none, none, none⟩
        ⟨[], [exEvent 1 1 0], []⟩).1).2 = ([], none) := by
  have h := initScoreboard_empty_ledger
    ⟨none, none, none, some (0, "down"), none, none, none, none, none⟩ healthy
    ⟨[], [exEvent 1 1 0], []⟩ rfl rfl rfl rfl rfl rfl
  exact ⟨⟨rfl, rfl, rfl⟩, h.1, h.2.2.2⟩

/-! ## The point upsert: `replaceScore` -/

theorem entriesAt_eq_nil_iff (l : List scoreEntry) (k : groupId) :
    entriesAt l k = [] ↔ k ∉ l.map groupKey := by
  unfold entriesAt
  rw [List.filter_eq_nil_iff]
  constructor
  · intro h hk
    obtain ⟨x, hx, hxk⟩ := List.mem_map.1 hk
    exact h x hx (by simpa using hxk)
  · intro h x hx hxk
    exact h (List.mem_map.2 ⟨x, hx, by simpa using hxk⟩)

theorem entriesAt_append (l m : List scoreEntry) (k : groupId) :
    entriesAt (l ++ m) k = entriesAt l k ++ entriesAt m k := by
  simp [entriesAt]

theorem entriesAt_single_same (e : scoreEntry) : entriesAt [e] (groupKey e) = [e] := by
  simp [entriesAt]

theorem entriesAt_single_other (e : scoreEntry) (k : groupId) (h : k ≠ groupKey e) :
    entriesAt [e] k = [] := by
  simp [entriesAt, Ne.symm h]

theorem uniqueKeys_sublist {l m : List scoreEntry} (h : l.Sublist m) (hu : UniqueKeys m) :
    UniqueKeys l :=
  List.Nodup.sublist (h.map groupKey) hu

theorem uniqueKeys_append_single (l : List scoreEntry) (e : scoreEntry) (hu : UniqueKeys l)
    (he : entriesAt l (groupKey e) = []) : UniqueKeys (l ++ [e]) := by
  have hk := (entriesAt_eq_nil_iff l (groupKey e)).1 he
  unfold UniqueKeys at *
  rw [List.map_append, List.nodup_append]
  refine ⟨hu, by simp, ?_⟩
  intro a ha hb
  simp at hb
  exact hk (hb ▸ ha)

theorem deleteOne_unique (p : scoreEntry → Bool) (l : List scoreEntry) (hu : UniqueKeys l) :
    UniqueKeys (deleteOne p l) :=
  uniqueKeys_sublist (List.eraseP_sublist l) hu

theorem deleteOne_key_absent (l : List scoreEntry) (k : groupId) (hu : UniqueKeys l) :
    entriesAt (deleteOne (fun x => decide (groupKey x = k)) l) k = [] := by
  unfold deleteOne
  induction l with
  | nil => rfl
  | cons x xs ih =>
    have hu2 : (groupKey x ∉ xs.map groupKey) ∧ (xs.map groupKey).Nodup := by
      simpa [UniqueKeys] using hu
    by_cases hx : groupKey x = k
    · rw [List.eraseP_cons_of_pos (by simpa using hx)]
      rw [entriesAt_eq_nil_iff]
      exact hx ▸ hu2.1
    · rw [List.eraseP_cons_of_neg (by simpa using hx)]
      have := ih hu2.2
      simp only [entriesAt] at this ⊢
      rw [List.filter_cons_of_neg (by simpa using hx)]
      exact this

theorem deleteOne_other (l : List scoreEntry) (k k2 : groupId) (h : k2 ≠ k) :
    entriesAt (deleteOne (fun x => decide (groupKey x = k)) l) k2 = entriesAt l k2 := by
  unfold deleteOne entriesAt
  induction l with
  | nil => rfl
  | cons x xs ih =>
    by_cases hx : groupKey x = k
    · rw [List.eraseP_cons_of_pos (by simpa using hx)]
      rw [List.filter_cons_of_neg (by simpa using (fun hh : groupKey x = k2 => h (hh ▸ hx)))]
    · rw [List.eraseP_cons_of_neg (by simpa using hx)]
      simp only [List.filter_cons, ih]

theorem replaceScore_ok (f : Faults) (e : scoreEntry) (st : Store)
    (hdel : f.deleteOne = none) (hins : f.insertOne = none) :
    replaceScore f e st =
      (⟨st.results,
        insertOne e (deleteOne (fun x => decide (groupKey x = groupKey e)) st.scoreboard),
        st.log ++ [.DeleteOne .scoreboard, .InsertOne .scoreboard]⟩, none) := by
  simp [replaceScore, hdel, hins, Store.logged, keyFilter_eq_decide]

theorem replaceScore_unique (f : Faults) (e : scoreEntry) (st : Store)
    (hu : UniqueKeys st.scoreboard) : UniqueKeys (replaceScore f e st).1.scoreboard := by
  unfold replaceScore
  cases hdel : f.deleteOne with
  | some m => simpa [Store.logged] using hu
  | none =>
    cases hins : f.insertOne with
    | some m =>
      simpa [Store.logged] using deleteOne_unique _ _ hu
    | none =>
      simp only [Store.logged, keyFilter_eq_decide, insertOne]
      exact uniqueKeys_append_single _ _ (deleteOne_unique _ _ hu)
        (deleteOne_key_absent _ _ hu)

theorem replaceScore_fold_unique (calls : List (Faults × scoreEntry)) (st : Store)
    (hu : UniqueKeys st.scoreboard) :
    UniqueKeys (calls.foldl (fun s c => (replaceScore c.1 c.2 s).1) st).scoreboard := by
  induction calls generalizing st with
  | nil => exact hu
  | cons c cs ih => exact ih _ (replaceScore_unique c.1 c.2 st hu)

/-- C3: for every view with at most one entry per key and every entry `e`, a
`replaceScore e` on a store that carries out the delete and the insert returns a nil
error and leaves a view that holds exactly one entry with the key of `e`, namely `e`,
and for every other key the entries it held before; and every sequence of sequential
`replaceScore` calls (successful or not) leaves a view with at most one entry per key. -/
theorem replaceScore_upsert (f : Faults) (e : scoreEntry) (st : Store)
    (hu : UniqueKeys st.scoreboard) (hdel : f.deleteOne = none) (hins : f.insertOne = none) :
    (replaceScore f e st).2 = none ∧
      entriesAt (replaceScore f e st).1.scoreboard (groupKey e) = [e] ∧
      (∀ k, k ≠ groupKey e →
        entriesAt (replaceScore f e st).1.scoreboard k = entriesAt st.scoreboard k) ∧
      (∀ calls : List (Faults × scoreEntry),
        UniqueKeys (calls.foldl (fun s c => (replaceScore c.1 c.2 s).1) st).scoreboard) := by
  rw [replaceScore_ok f e st hdel hins]
  refine ⟨rfl, ?_, ?_, fun calls => replaceScore_fold_unique calls st hu⟩
  · simp only [insertOne]
    rw [entriesAt_append, deleteOne_key_absent _ _ hu, entriesAt_single_same]
    rfl
  · intro k hk
    simp only [insertOne]
    rw [entriesAt_append, deleteOne_other _ _ _ hk, entriesAt_single_other _ _ hk]
    simp

/-- C3, at a view holding an entry of key `(T1, imgX)`: the upsert replaces it. -/
theorem replaceScore_upsert_witness :
    (UniqueKeys [exEvent 10 5 0] ∧ healthy.deleteOne = none ∧ healthy.insertOne = none) ∧
    entriesAt (replaceScore healthy (exEvent 30 9 0) ⟨[], [exEvent 10 5 0], []⟩).1.scoreboard
      (groupKey (exEvent 30 9 0)) = [exEvent 30 9 0] :=
  ⟨⟨by decide, rfl, rfl⟩,
    (replaceScore_upsert healthy (exEvent 30 9 0) ⟨[], [exEvent 10 5 0], []⟩
      (by decide) rfl rfl).2.1⟩

/-! ## Two concurrent `replaceScore` calls -/

theorem replaceScoreSteps_eq (e : scoreEntry) :
    replaceScoreSteps e =
      [deleteOne (fun x => decide (groupKey x = groupKey e)), insertOne e] := by
  simp [replaceScoreSteps, keyFilter_eq_decide]

theorem length_eq_count_bool (s : List Bool) : s.length = s.count false + s.count true := by
  induction s with
  | nil => rfl
  | cons b bs ih =>
    cases b <;> simp only [List.count_cons, List.length_cons] <;> simp <;> omega

theorem completeSchedule_cases (s : List Bool) (hs : CompleteSchedule s) :
    s = [false, false, true, true] ∨ s = [true, true, false, false] ∨
      s = [false, true, false, true] ∨ s = [false, true, true, false] ∨
      s = [true, false, false, true] ∨ s = [true, false, true, false] := by
  have hl : s.length = 4 := by
    rw [length_eq_count_bool, hs.1, hs.2]
  match s, hl, hs with
  | [a, b, c, d], _, hs =>
    revert hs
    cases a <;> cases b <;> cases c <;> cases d <;> simp [CompleteSchedule]


theorem entriesAt_insertOne_same (e : scoreEntry) (l : List scoreEntry) :
    entriesAt (insertOne e l) (groupKey e) = entriesAt l (groupKey e) ++ [e] := by
  rw [insertOne, entriesAt_append, entriesAt_single_same]

theorem entriesAt_insertOne_other (e : scoreEntry) (l : List scoreEntry) (k : groupId)
    (h : k ≠ groupKey e) : entriesAt (insertOne e l) k = entriesAt l k := by
  rw [insertOne, entriesAt_append, entriesAt_single_other _ _ h, List.append_nil]

theorem serial_upserts (v : List scoreEntry) (a b : scoreEntry) (hu : UniqueKeys v) :
    entriesAt (insertOne b (deleteOne (fun x => decide (groupKey x = groupKey b))
      (insertOne a (deleteOne (fun x => decide (groupKey x = groupKey a)) v)))) (groupKey b)
      = [b] := by
  have h1 : UniqueKeys (insertOne a (deleteOne (fun x => decide (groupKey x = groupKey a)) v)) :=
    uniqueKeys_append_single _ _ (deleteOne_unique _ _ hu) (deleteOne_key_absent _ _ hu)
  rw [entriesAt_insertOne_same, deleteOne_key_absent _ _ h1]
  rfl

theorem racing_upserts (v : List scoreEntry) (a b : scoreEntry) (k : groupId)
    (hu : UniqueKeys v) (ha : groupKey a = k) (hb : groupKey b = k) :
    entriesAt (insertOne b (insertOne a (deleteOne (fun x => decide (groupKey x = k))
      (deleteOne (fun x => decide (groupKey x = k)) v)))) k = [a, b] := by
  subst ha
  rw [← hb, entriesAt_insertOne_same, hb, entriesAt_insertOne_same,
    deleteOne_key_absent _ _ (deleteOne_unique _ _ hu)]
  rfl

theorem interleave_other (v : List scoreEntry) (e1 e2 : scoreEntry) (s : List Bool)
    (hk : groupKey e1 = groupKey e2) (k : groupId) (h : k ≠ groupKey e1) :
    ∀ (p1 p2 : List (List scoreEntry → List scoreEntry)),
      p1.Sublist (replaceScoreSteps e1) → p2.Sublist (replaceScoreSteps e2) →
      entriesAt (interleave s p1 p2 v) k = entriesAt v k := by
  have hstep1 : ∀ step ∈ replaceScoreSteps e1, ∀ w, entriesAt (step w) k = entriesAt w k := by
    intro step hstep w
    rw [replaceScoreSteps_eq] at hstep
    simp only [List.mem_cons, List.mem_singleton, List.not_mem_nil, or_false] at hstep
    rcases hstep with rfl | rfl
    · exact deleteOne_other _ _ _ h
    · exact entriesAt_insertOne_other _ _ _ h
  have hstep2 : ∀ step ∈ replaceScoreSteps e2, ∀ w, entriesAt (step w) k = entriesAt w k := by
    intro step hstep w
    rw [replaceScoreSteps_eq] at hstep
    simp only [List.mem_cons, List.mem_singleton, List.not_mem_nil, or_false] at hstep
    rcases hstep with rfl | rfl
    · exact deleteOne_other _ _ _ (hk ▸ h)
    · exact entriesAt_insertOne_other _ _ _ (hk ▸ h)
  induction s generalizing v with
  | nil => intro p1 p2 _ _; rfl
  | cons b bs ih =>
    intro p1 p2 h1 h2
    cases b with
    | false =>
      cases p1 with
      | nil => exact ih v [] p2 h1 h2
      | cons step p1 =>
        rw [interleave, ih (step v) p1 p2 ((List.sublist_cons_self step p1).trans h1) h2]
        exact hstep1 step (h1.subset (List.mem_cons_self _ _)) v
    | true =>
      cases p2 with
      | nil => exact ih v p1 [] h1 h2
      | cons step p2 =>
        rw [interleave, ih (step v) p1 p2 h1 ((List.sublist_cons_self step p2).trans h2)]
        exact hstep2 step (h2.subset (List.mem_cons_self _ _)) v

/-- C4, refuted as stated: from the empty view, the schedule delete-1, delete-2,
insert-1, insert-2 of two concurrent `replaceScore` calls with one key leaves two
entries for that key. -/
theorem concurrent_replaceScore_not_one :
    ¬ ∀ (view : List scoreEntry) (e1 e2 : scoreEntry) (s : List Bool),
      UniqueKeys view → groupKey e1 = groupKey e2 → CompleteSchedule s →
      (entriesAt (interleave s (replaceScoreSteps e1) (replaceScoreSteps e2) view)
        (groupKey e1)).length = 1 := by
  intro h
  have h2 := h [] (exEvent 10 5 0) (exEvent 30 9 0) [false, true, false, true]
    (by decide) (by decide) (by decide)
  revert h2
  decide

/-- C4, amended: for every view with at most one entry per key and two entries `e1`,
`e2` with one key, an interleaving of the store steps of two concurrent `replaceScore`
calls leaves exactly one entry for that key when the calls are serialized (the entry of
the call that ran second; the view is then the one two sequential `replaceScore` calls
leave), and leaves the two entries `e1` and `e2` for that key in each of the four
interleavings in which both `DeleteOne` steps precede both `InsertOne` steps; the
entries of every other key are untouched. -/
theorem concurrent_replaceScore (view : List scoreEntry) (e1 e2 : scoreEntry)
    (s : List Bool) (hu : UniqueKeys view) (hk : groupKey e1 = groupKey e2)
    (hs : CompleteSchedule s) :
    (s = [false, false, true, true] →
      entriesAt (interleave s (replaceScoreSteps e1) (replaceScoreSteps e2) view)
        (groupKey e1) = [e2] ∧
      interleave s (replaceScoreSteps e1) (replaceScoreSteps e2) view =
        (replaceScore healthy e2 (replaceScore healthy e1 ⟨[], view, []⟩).1).1.scoreboard) ∧
    (s = [true, true, false, false] →
      entriesAt (interleave s (replaceScoreSteps e1) (replaceScoreSteps e2) view)
        (groupKey e1) = [e1] ∧
      interleave s (replaceScoreSteps e1) (replaceScoreSteps e2) view =
        (replaceScore healthy e1 (replaceScore healthy e2 ⟨[], view, []⟩).1).1.scoreboard) ∧
    (s ≠ [false, false, true, true] → s ≠ [true, true, false, false] →
      entriesAt (interleave s (replaceScoreSteps e1) (replaceScoreSteps e2) view)
          (groupKey e1) = [e1, e2] ∨
        entriesAt (interleave s (replaceScoreSteps e1) (replaceScoreSteps e2) view)
          (groupKey e1) = [e2, e1]) ∧
    (∀ k, k ≠ groupKey e1 →
      entriesAt (interleave s (replaceScoreSteps e1) (replaceScoreSteps e2) view) k =
        entriesAt view k) := by
  refine ⟨?_, ?_, ?_, fun k hk2 =>
    interleave_other view e1 e2 s hk k hk2 _ _ (List.Sublist.refl _) (List.Sublist.refl _)⟩
  · rintro rfl
    rw [replaceScoreSteps_eq, replaceScoreSteps_eq]
    simp only [interleave]
    refine ⟨?_, ?_⟩
    · have h := serial_upserts view e1 e2 hu
      rw [← hk] at h ⊢
      exact h
    · simp [replaceScore_ok, healthy]
  · rintro rfl
    rw [replaceScoreSteps_eq, replaceScoreSteps_eq]
    simp only [interleave]
    refine ⟨?_, ?_⟩
    · exact serial_upserts view e2 e1 hu
    · simp [replaceScore_ok, healthy]
  · intro hn1 hn2
    rw [replaceScoreSteps_eq, replaceScoreSteps_eq, ← hk]
    rcases completeSchedule_cases s hs with rfl | rfl | rfl | rfl | rfl | rfl
    · exact absurd rfl hn1
    · exact absurd rfl hn2
    · left
      simp only [interleave]
      exact racing_upserts view e1 e2 _ hu rfl hk.symm
    · right
      simp only [interleave]
      exact racing_upserts view e2 e1 _ hu hk.symm rfl
    · left
      simp only [interleave]
      exact racing_upserts view e1 e2 _ hu rfl hk.symm
    · right
      simp only [interleave]
      exact racing_upserts view e2 e1 _ hu hk.symm rfl

/-- C4 (amended), at the empty view and the schedule delete-1, delete-2, insert-1,
insert-2: both entries remain. -/
theorem concurrent_replaceScore_witness :
    (UniqueKeys [] ∧ groupKey (exEvent 10 5 0) = groupKey (exEvent 30 9 0) ∧
      CompleteSchedule [false, true, false, true]) ∧
    (entriesAt (interleave [false, true, false, true] (replaceScoreSteps (exEvent 10 5 0))
        (replaceScoreSteps (exEvent 30 9 0)) []) (groupKey (exEvent 10 5 0))
        = [exEvent 10 5 0, exEvent 30 9 0] ∨
      entriesAt (interleave [false, true, false, true] (replaceScoreSteps (exEvent 10 5 0))
        (replaceScoreSteps (exEvent 30 9 0)) []) (groupKey (exEvent 10 5 0))
        = [exEvent 30 9 0, exEvent 10 5 0]) :=
  ⟨⟨by decide, by decide, by decide⟩,
    (concurrent_replaceScore [] (exEvent 10 5 0) (exEvent 30 9 0) [false, true, false, true]
      (by decide) (by decide) (by decide)).2.2.1 (by decide) (by decide)⟩

/-! ## Queries: `getScore`, `getCsv`, `getLastScore` -/

theorem keyFilter_eq_decide_key (name id : String) :
    keyFilter name id = fun x => decide (groupKey x = ⟨name, id⟩) := by
  funext d
  rw [Bool.eq_iff_iff, keyFilter_iff]
  simp

theorem filter_keyFilter (l : List scoreEntry) (name id : String) :
    l.filter (keyFilter name id) = entriesAt l ⟨name, id⟩ := by
  rw [keyFilter_eq_decide_key]
  rfl

theorem entriesAt_length_le (l : List scoreEntry) (k : groupId) (hu : UniqueKeys l) :
    (entriesAt l k).length ≤ 1 := by
  by_cases hk : k ∈ l.map groupKey
  · obtain ⟨e, he, rfl⟩ := List.mem_map.1 hk
    rw [filter_key_singleton l hu e he]
    rfl
  · rw [(entriesAt_eq_nil_iff l k).2 hk]
    exact Nat.zero_le _

theorem entriesAt_eq_find (l : List scoreEntry) (name id : String) (hu : UniqueKeys l) :
    entriesAt l ⟨name, id⟩ = (l.find? (keyFilter name id)).toList := by
  cases h : l.find? (keyFilter name id) with
  | none =>
    rw [List.find?_eq_none] at h
    rw [← filter_keyFilter]
    exact List.filter_eq_nil_iff.2 h
  | some e =>
    have hk : groupKey e = ⟨name, id⟩ := (keyFilter_iff name id e).1 (List.find?_some h)
    rw [← hk, filter_key_singleton l hu e (List.mem_of_find?_eq_some h)]
    rfl

theorem getTop_ok (f : Faults) (st : Store) (hfind : f.find = none) (hfall : f.findAll = none) :
    getTop f st = (st.logged (.Find .scoreboard), st.scoreboard, none) := by
  simp [getTop, hfind, hfall]

theorem flatMap_toList {α β : Type} (g : α → Option β) (l : List α) :
    l.flatMap (fun a => (g a).toList) = l.filterMap g := by
  induction l with
  | nil => rfl
  | cons a as ih =>
    rw [List.flatMap_cons, List.filterMap_cons, ih]
    cases g a <;> rfl

theorem perm_eq_of_length_le {l m : List scoreEntry} (h : l.Perm m) (hl : m.length ≤ 1) :
    l = m := by
  match m, hl with
  | [], _ => exact List.perm_nil.1 h
  | [a], _ => exact List.perm_singleton.1 h

/-- C5: for every team name, every non-empty image name and every view with at most one
entry per key, `getScore teamName imageName` (on a store that carries out the scan)
returns a list of length at most one: the one-element list holding the entry of the view
whose image name is `imageName` and whose team id is the id the team name resolves to,
when the view holds such an entry, and the empty list otherwise. -/
theorem getScore_image (getTeam : String → teamData) (images : List imageData) (f : Faults)
    (teamName imageName : String) (st : Store) (hfind : f.find = none)
    (hfall : f.findAll = none) (hname : imageName ≠ "") (hu : UniqueKeys st.scoreboard) :
    ∃ r, (getScore getTeam images f teamName imageName st).2 = .ok r ∧
      r.length ≤ 1 ∧
      (∀ e ∈ st.scoreboard, e.Image.Name = imageName → e.Team.Id = (getTeam teamName).Id →
        r = [e]) ∧
      ((∀ e ∈ st.scoreboard, ¬ (e.Image.Name = imageName ∧ e.Team.Id = (getTeam teamName).Id)) →
        r = []) := by
  refine ⟨entriesAt st.scoreboard ⟨imageName, (getTeam teamName).Id⟩, ?_,
    entriesAt_length_le _ _ hu, ?_, ?_⟩
  · unfold getScore
    simp only [getTop_ok f st hfind hfall, hname, ne_eq, not_false_eq_true, if_true]
    rw [← filter_keyFilter]
    rfl
  · intro e he h1 h2
    have hk : groupKey e = ⟨imageName, (getTeam teamName).Id⟩ := by
      simp [groupKey, h1, h2]
    rw [← hk]
    exact filter_key_singleton _ hu e he
  · intro h
    rw [entriesAt_eq_nil_iff]
    intro hk
    obtain ⟨e, he, hke⟩ := List.mem_map.1 hk
    have : e.Image.Name = imageName ∧ e.Team.Id = (getTeam teamName).Id := by
      simpa [groupKey] using hke
    exact h e he this

/-- C5, at a view holding one entry of team `t1` on image `web`. -/
theorem getScore_image_witness :
    (healthy.find = none ∧ healthy.findAll = none ∧ "web" ≠ "" ∧
      UniqueKeys [exCsvEntry "a" "b", exEvent 10 5 0]) ∧
    ∃ r, (getScore exGetTeam exImages healthy "t1" "web"
        ⟨[], [exCsvEntry "a" "b", exEvent 10 5 0], []⟩).2 = .ok r ∧ r = [exCsvEntry "a" "b"] := by
  refine ⟨⟨rfl, rfl, by decide, by decide⟩, ?_⟩
  obtain ⟨r, hr, _, h1, _⟩ := getScore_image exGetTeam exImages healthy "t1" "web"
    ⟨[], [exCsvEntry "a" "b", exEvent 10 5 0], []⟩ rfl rfl (by decide) (by decide)
  exact ⟨r, hr, h1 (exCsvEntry "a" "b") (by simp) rfl rfl⟩

theorem filterMap_map_sublist {α β κ : Type} (g : α → Option β) (key : β → κ) (h : α → κ)
    (l : List α) (hg : ∀ a b, g a = some b → key b = h a) :
    ((l.filterMap g).map key).Sublist (l.map h) := by
  induction l with
  | nil => exact List.Sublist.refl _
  | cons a as ih =>
    rw [List.filterMap_cons]
    cases hga : g a with
    | none => exact List.Sublist.cons _ ih
    | some b =>
      simp only [List.map_cons]
      rw [hg a b hga]
      exact List.Sublist.cons₂ _ ih

/-- C6: for every team name, every configured image list and every view with at most one
entry per key, `getScore teamName ""` (on a store that carries out the scan) returns,
image by image in configured order, the entry of the view for that image and the team
when the view holds one and nothing when it holds none (so no two returned entries share
an image when no image name is configured twice); the result is the same for every scan
order of the view. -/
theorem getScore_all_images (getTeam : String → teamData) (images : List imageData)
    (f : Faults) (teamName : String) (st : Store) (hfind : f.find = none)
    (hfall : f.findAll = none) (hu : UniqueKeys st.scoreboard) :
    (getScore getTeam images f teamName "" st).2 =
        .ok (images.filterMap fun image =>
          st.scoreboard.find? (keyFilter image.Name (getTeam teamName).Id)) ∧
      ((images.map imageData.Name).Nodup →
        UniqueKeys (images.filterMap fun image =>
          st.scoreboard.find? (keyFilter image.Name (getTeam teamName).Id))) ∧
      ∀ st2 : Store, st2.scoreboard.Perm st.scoreboard →
        (getScore getTeam images f teamName "" st2).2 =
          (getScore getTeam images f teamName "" st).2 := by
  have hform : ∀ s : Store, (getScore getTeam images f teamName "" s).2 =
      .ok (images.flatMap fun image =>
        entriesAt s.scoreboard ⟨image.Name, (getTeam teamName).Id⟩) := by
    intro s
    unfold getScore
    simp only [getTop_ok f s hfind hfall, ne_eq, not_true_eq_false, if_false]
    congr 2
    funext image
    rw [← filter_keyFilter]
    rfl
  refine ⟨?_, ?_, ?_⟩
  · rw [hform, ← flatMap_toList]
    congr 2
    funext image
    exact entriesAt_eq_find _ _ _ hu
  · intro hnd
    have hsub := filterMap_map_sublist
      (fun image : imageData =>
        st.scoreboard.find? (keyFilter image.Name (getTeam teamName).Id))
      groupKey (fun image => (⟨image.Name, (getTeam teamName).Id⟩ : groupId)) images
      (fun a b hab => (keyFilter_iff _ _ b).1 (List.find?_some hab))
    refine List.Nodup.sublist hsub ?_
    have hinj : Function.Injective (fun n : String => (⟨n, (getTeam teamName).Id⟩ : groupId)) := by
      intro a b hab
      exact congrArg groupId.image hab
    have := List.Nodup.map hinj hnd
    rwa [List.map_map] at this
  · intro st2 hp
    rw [hform, hform]
    congr 2
    funext image
    exact perm_eq_of_length_le (hp.filter _) (entriesAt_length_le _ _ hu)

/-- C6, at a view scanned in the order `imgX`, `web`, with images configured in the
order `web`, `db`, `imgX`. -/
theorem getScore_all_images_witness :
    (healthy.find = none ∧ healthy.findAll = none ∧
      UniqueKeys [exEvent 10 5 0, ⟨1, exTeam, .mk "web" "" [] 0, ⟨0, 0, []⟩, "", 50, 0, 0, "", 0, ""⟩]) ∧
    (getScore exGetTeam exImages healthy "T1" ""
        ⟨[], [exEvent 10 5 0, ⟨1, exTeam, .mk "web" "" [] 0, ⟨0, 0, []⟩, "", 50, 0, 0, "", 0, ""⟩],
          []⟩).2 =
      .ok [⟨1, exTeam, .mk "web" "" [] 0, ⟨0, 0, []⟩, "", 50, 0, 0, "", 0, ""⟩, exEvent 10 5 0] := by
  refine ⟨⟨rfl, rfl, by decide⟩, ?_⟩
  rw [(getScore_all_images exGetTeam exImages healthy "T1"
    ⟨[], [exEvent 10 5 0, ⟨1, exTeam, .mk "web" "" [] 0, ⟨0, 0, []⟩, "", 50, 0, 0, "", 0, ""⟩], []⟩
    rfl rfl (by decide)).1]
  exact congrArg Except.ok (by decide)

theorem foldl_append_string (l : List String) (acc : String) :
    l.foldl (fun r s => r ++ s) acc = acc ++ l.foldl (fun r s => r ++ s) "" := by
  induction l generalizing acc with
  | nil => simp
  | cons x xs ih =>
    rw [List.foldl_cons, List.foldl_cons, ih (acc ++ x), ih ("" ++ x), String.empty_append,
      String.append_assoc]

theorem join_cons (x : String) (xs : List String) :
    String.join (x :: xs) = x ++ String.join xs := by
  unfold String.join
  rw [List.foldl_cons, foldl_append_string, String.empty_append]

theorem csvAppend_eq (formatTime : Int → String) (csvString : String) (score : scoreEntry) :
    csvAppend formatTime csvString score = csvString ++ csvLine formatTime score := by
  simp [csvAppend, csvLine, String.intercalate, String.intercalate.go, String.append_assoc]

theorem foldl_csvAppend (formatTime : Int → String) (l : List scoreEntry) (acc : String) :
    l.foldl (csvAppend formatTime) acc = acc ++ String.join (l.map (csvLine formatTime)) := by
  induction l generalizing acc with
  | nil => simp [String.join]
  | cons x xs ih =>
    rw [List.foldl_cons, ih, csvAppend_eq, List.map_cons, join_cons, String.append_assoc]

theorem csvLine_eq_spec (formatTime : Int → String) (e : scoreEntry)
    (hp : e.PlayTimeStr = formatTime e.PlayTime)
    (he : e.ElapsedTimeStr = formatTime e.ElapsedTime) :
    csvLine formatTime e = specCsvLine e := by
  unfold csvLine specCsvLine
  rw [hp, he]

/-- C7, refuted as stated: whatever `formatTime` is, `getCsv` does not render the stored
strings `playtimestr` / `elapsedtimestr`: two views that differ only in a stored string
give the same text. -/
theorem getCsv_not_stored_strings :
    ¬ ∃ formatTime : Int → String, ∀ st : Store,
      (getCsv formatTime healthy st).2 = .ok (specCsv st.scoreboard) := by
  rintro ⟨formatTime, h⟩
  have h1 := h ⟨[], [exCsvEntry "1h0m0s" "2h0m0s"], []⟩
  have h2 := h ⟨[], [exCsvEntry "one hour" "2h0m0s"], []⟩
  have h3 : (getCsv formatTime healthy ⟨[], [exCsvEntry "1h0m0s" "2h0m0s"], []⟩).2 =
      (getCsv formatTime healthy ⟨[], [exCsvEntry "one hour" "2h0m0s"], []⟩).2 := rfl
  rw [h1, h2] at h3
  have h4 : specCsv [exCsvEntry "1h0m0s" "2h0m0s"] = specCsv [exCsvEntry "one hour" "2h0m0s"] :=
    Except.ok.inj h3
  revert h4
  decide

/-- C7, amended: for every list of entries returned by the scan, `getCsv` returns the
header line followed by exactly one line per entry, in scan order, each line being team
email, team alias, team id, image name, points in decimal, play time and elapsed time
joined by commas, where the two durations are rendered by `formatTime` applied to the
entry's `playtime` and `elapsedtime`; this is the text built from the stored strings
whenever every entry's `playtimestr` and `elapsedtimestr` are what `formatTime` gives for
its durations. -/
theorem getCsv_lines (formatTime : Int → String) (f : Faults) (st : Store)
    (hfind : f.find = none) (hfall : f.findAll = none) :
    (getCsv formatTime f st).2 =
        .ok (csvHeader ++ String.join (st.scoreboard.map (csvLine formatTime))) ∧
      ((∀ e ∈ st.scoreboard, e.PlayTimeStr = formatTime e.PlayTime ∧
          e.ElapsedTimeStr = formatTime e.ElapsedTime) →
        (getCsv formatTime f st).2 = .ok (specCsv st.scoreboard)) := by
  have h1 : (getCsv formatTime f st).2 =
      .ok (csvHeader ++ String.join (st.scoreboard.map (csvLine formatTime))) := by
    unfold getCsv
    simp only [getTop_ok f st hfind hfall]
    rw [foldl_csvAppend]
  refine ⟨h1, fun h => ?_⟩
  rw [h1]
  unfold specCsv
  congr 3
  exact List.map_congr_left fun e he => csvLine_eq_spec formatTime e (h e he).1 (h e he).2

/-- C7 (amended), at the single entry of team `t1` on image `web` with 100 points, with
the formatter `hms`: header line, then `a@x.com,A,t1,web,100,1h0m0s,2h0m0s`. -/
theorem getCsv_lines_witness :
    (healthy.find = none ∧ healthy.findAll = none) ∧
    (getCsv hms healthy ⟨[], [exCsvEntry "1h0m0s" "2h0m0s"], []⟩).2 =
      .ok "Email,Alias,Team Id,Image,Score,Play Time,Elapsed Time\na@x.com,A,t1,web,100,1h0m0s,2h0m0s\n" := by
  refine ⟨⟨rfl, rfl⟩, ?_⟩
  rw [(getCsv_lines hms healthy ⟨[], [exCsvEntry "1h0m0s" "2h0m0s"], []⟩ rfl rfl).1]
  exact congrArg Except.ok (by decide)

/-- C8, refuted as stated: on a view without an entry for the key, `getLastScore`
returns a non-nil error. -/
theorem getLastScore_not_found_is_error :
    ¬ ∀ (e : scoreEntry) (st : Store), (∀ x ∈ st.scoreboard, groupKey x ≠ groupKey e) →
      (getLastScore healthy e st).2.2 = none := by
  intro h
  have h1 := h (exEvent 10 5 0) ⟨[], [], []⟩ (by simp)
  revert h1
  decide

/-- C8, amended: for every view and every key, `getLastScore` returns the first entry of
the view with that key and a nil error when the view holds one; when it holds none it
returns the zero-valued entry together with the error `ErrNoDocuments`, through the same
error result as a failed lookup, from which it differs by the error's value only. -/
theorem getLastScore_result (f : Faults) (e : scoreEntry) (st : Store) :
    (f.findOne = none → (∃ x ∈ st.scoreboard, groupKey x = groupKey e) →
      ∃ d, st.scoreboard.find? (fun x => decide (groupKey x = groupKey e)) = some d ∧
        d ∈ st.scoreboard ∧ groupKey d = groupKey e ∧ (getLastScore f e st).2 = (d, none)) ∧
    (f.findOne = none → (∀ x ∈ st.scoreboard, groupKey x ≠ groupKey e) →
      (getLastScore f e st).2 = (zeroScoreEntry, some .ErrNoDocuments)) ∧
    (∀ m, f.findOne = some m →
      (getLastScore f e st).2 = (zeroScoreEntry, some (.Other m)) ∧
        MongoError.Other m ≠ .ErrNoDocuments) := by
  refine ⟨?_, ?_, ?_⟩
  · intro hf ⟨x, hx, hk⟩
    cases hd : st.scoreboard.find? (fun x => decide (groupKey x = groupKey e)) with
    | none =>
      rw [List.find?_eq_none] at hd
      exact absurd (by simpa using hk) (hd x hx)
    | some d =>
      refine ⟨d, rfl, List.mem_of_find?_eq_some hd, by simpa using List.find?_some hd, ?_⟩
      simp [getLastScore, hf, findOne, Store.logged, keyFilter_eq_decide, hd]
  · intro hf hnone
    have hd : st.scoreboard.find? (fun x => decide (groupKey x = groupKey e)) = none := by
      rw [List.find?_eq_none]
      intro x hx
      simpa using hnone x hx
    simp [getLastScore, hf, findOne, Store.logged, keyFilter_eq_decide, hd]
  · intro m hm
    exact ⟨by simp [getLastScore, hm], by simp⟩

/-- C8 (amended), at a view holding an entry of key `(T1, imgX)` and at the empty view. -/
theorem getLastScore_result_witness :
    (healthy.findOne = none ∧ (∃ x ∈ [exEvent 10 5 0], groupKey x = groupKey (exEvent 30 9 0)) ∧
      ∀ x ∈ ([] : List scoreEntry), groupKey x ≠ groupKey (exEvent 30 9 0)) ∧
    (getLastScore healthy (exEvent 30 9 0) ⟨[], [exEvent 10 5 0], []⟩).2 = (exEvent 10 5 0, none) ∧
    (getLastScore healthy (exEvent 30 9 0) ⟨[], [], []⟩).2 =
      (zeroScoreEntry, some .ErrNoDocuments) := by
  refine ⟨⟨rfl, by decide, by simp⟩, ?_, ?_⟩
  · obtain ⟨d, hd, _, _, hr⟩ := (getLastScore_result healthy (exEvent 30 9 0)
      ⟨[], [exEvent 10 5 0], []⟩).1 rfl (by decide)
    rw [hr]
    have : d = exEvent 10 5 0 := by
      have h2 : List.find? (fun x => decide (groupKey x = groupKey (exEvent 30 9 0)))
          [exEvent 10 5 0] = some (exEvent 10 5 0) := by decide
      exact Option.some.inj (hd.symm.trans h2)
    rw [this]
  · exact (getLastScore_result healthy (exEvent 30 9 0) ⟨[], [], []⟩).2.1 rfl (by simp)

end Sarpedon
